import Mathlib

/-!
Verification of the subgraph lifecycle coordinator and entity-change
transaction model of the graph-node repository. The definitions below are
shallow embeddings of the Rust source (strings are Lean strings, Rust
HashMap/HashSet become association lists / finsets, fallible functions
return Option/Except). Each claim about the specification is settled by a
theorem about these definitions.
-/

set_option autoImplicit false

namespace GraphNode

/-! ## Identifier validation (graph/src/data/subgraph/mod.rs) -/

/-- Wrapper for a validated deployment id string, embedding the Rust
newtype struct SubgraphDeploymentId(String). -/
structure SubgraphDeploymentId where
  id : String
deriving DecidableEq, Repr

/-- Embeds SubgraphDeploymentId::new. Rust String::len counts bytes; on
strings that pass the ASCII-alphanumeric character check byte count and
character count coincide, so the length test is modelled on characters.
Err(()) becomes none. -/
def SubgraphDeploymentId.new (s : String) : Option SubgraphDeploymentId :=
  if s.length > 46 then none
  else if !(s.data.all Char.isAlphanum) then none
  else some ⟨s⟩

/-- Wrapper for a validated subgraph name, embedding the Rust newtype
struct SubgraphName(String). -/
structure SubgraphName where
  name : String
deriving DecidableEq, Repr

/-- Embeds Rust str::split with the one-character pattern given by the
separator: splits a character list at every occurrence of the separator,
keeping empty segments; the empty list yields one empty segment. -/
def splitSep (sep : Char) : List Char → List (List Char)
  | [] => [[]]
  | c :: cs =>
    if c = sep then [] :: splitSep sep cs
    else
      match splitSep sep cs with
      | [] => [[c]]
      | seg :: rest => (c :: seg) :: rest

/-- The per-segment validation performed in the loop body of
SubgraphName::new: segments must be non-empty, at most 32 characters,
not the reserved token graphql, start and end with an alphanumeric
character, and contain at least one letter. -/
def validSegment (part : List Char) : Bool :=
  !part.isEmpty && part.length ≤ 32
    && !(part = "graphql".data)
    && (match part.head? with | none => false | some c => c.isAlphanum)
    && (match part.getLast? with | none => false | some c => c.isAlphanum)
    && part.any Char.isAlpha

/-- Embeds SubgraphName::new: length limits, a global character check
allowing alphanumerics, dash, underscore and slash, and the per-segment
checks on the slash-separated components. As for deployment ids, the byte
length check is modelled on characters, which agrees on strings passing
the ASCII character check. -/
def SubgraphName.new (s : String) : Option SubgraphName :=
  if s.data.isEmpty || s.length > 255 then none
  else if !(s.data.all fun c => c.isAlphanum || c = '-' || c = '_' || c = '/') then none
  else if !((splitSep '/' s.data).all validSegment) then none
  else some ⟨s⟩

/-- The per-segment acceptance condition as claim C5 phrases it:
segments are 1 to 32 characters, drawn from alphanumerics, dash and
underscore, contain a letter, begin and end alphanumeric, and are not the
literal graphql. -/
def claimSegment (part : List Char) : Prop :=
  1 ≤ part.length ∧ part.length ≤ 32 ∧
    (∀ c ∈ part, c.isAlphanum ∨ c = '-' ∨ c = '_') ∧
    (∃ c ∈ part, c.isAlpha) ∧
    (∀ c ∈ part.head?, c.isAlphanum) ∧
    (∀ c ∈ part.getLast?, c.isAlphanum) ∧
    part ≠ "graphql".data

/-- The acceptance condition exactly as the specification states it for
claim C5: total length at most 255 and every slash-separated segment
acceptable. -/
def specNameOk (s : String) : Prop :=
  s.length ≤ 255 ∧ ∀ part ∈ splitSep '/' s.data, claimSegment part

/-! Auxiliary lemmas about splitSep. -/

theorem splitSep_ne_nil (sep : Char) (cs : List Char) : splitSep sep cs ≠ [] := by
  cases cs with
  | nil => simp [splitSep]
  | cons c cs =>
    simp only [splitSep]
    split
    · simp
    · split
      · simp
      · simp

/-- A character satisfying p-or-separator everywhere is the same as every
segment produced by splitSep satisfying p on all its characters: segments
contain exactly the non-separator characters. -/
theorem all_splitSep (p : Char → Bool) (sep : Char) (cs : List Char) :
    (splitSep sep cs).all (fun seg => seg.all p)
      = cs.all (fun c => p c || c = sep) := by
  induction cs with
  | nil => simp [splitSep]
  | cons c cs ih =>
    simp only [splitSep]
    by_cases hc : c = sep
    · simp [hc, ← ih]
    · have hne := splitSep_ne_nil sep cs
      rcases hseg : splitSep sep cs with _ | ⟨seg, rest⟩
      · exact absurd hseg hne
      · have ih2 : (seg.all p && rest.all fun sg => sg.all p)
            = cs.all fun d => p d || decide (d = sep) := by
          rw [← ih, hseg, List.all_cons]
        rw [if_neg hc]
        show ((c :: seg) :: rest).all (fun sg => sg.all p)
          = (c :: cs).all fun d => p d || decide (d = sep)
        simp only [List.all_cons, decide_eq_false hc, Bool.or_false, Bool.and_assoc]
        rw [ih2]


/-- A segment whose characters are alphanumeric, dash or underscore
passes the source's per-segment checks exactly when it satisfies the
claim's per-segment condition. -/
theorem validSegment_iff_claimSegment (part : List Char)
    (hchars : ∀ c ∈ part, (c.isAlphanum || c = '-' || c = '_') = true) :
    validSegment part = true ↔ claimSegment part := by
  cases part with
  | nil => simp [validSegment, claimSegment]
  | cons c cs =>
    obtain ⟨e, hl⟩ : ∃ e, (c :: cs).getLast? = some e :=
      Option.isSome_iff_exists.1 (by rw [List.getLast?_isSome]; simp)
    unfold validSegment claimSegment
    rw [hl]
    simp only [List.isEmpty_cons, Bool.not_false, List.head?_cons, Bool.true_and,
      Bool.and_eq_true, and_assoc, decide_eq_true_eq, Bool.not_eq_true',
      decide_eq_false_iff_not, List.any_eq_true, List.length_cons,
      Option.mem_def, Option.some.injEq, forall_eq']
    constructor
    · rintro ⟨hlen, hgq, hhd, hlast, halpha⟩
      refine ⟨by omega, hlen, ?_, halpha, hhd, hlast, hgq⟩
      intro d hd
      have h := hchars d hd
      simp only [Bool.or_eq_true, decide_eq_true_eq] at h
      tauto
    · rintro ⟨-, hlen, -, halpha, hhd, hlast, hgq⟩
      exact ⟨hlen, hgq, hhd, hlast, halpha⟩

/-- Combining the source's global character check with its per-segment
loop is equivalent to the claim's purely per-segment condition. -/
theorem name_checks_iff (cs : List Char) :
    ((cs.all fun c => c.isAlphanum || c = '-' || c = '_' || c = '/')
        && (splitSep '/' cs).all validSegment) = true
      ↔ ∀ part ∈ splitSep '/' cs, claimSegment part := by
  have hglobal : (cs.all fun c => c.isAlphanum || c = '-' || c = '_' || c = '/')
      = (splitSep '/' cs).all fun seg =>
          seg.all fun c => c.isAlphanum || c = '-' || c = '_' := by
    rw [all_splitSep]
  rw [hglobal, Bool.and_eq_true, List.all_eq_true, List.all_eq_true]
  constructor
  · rintro ⟨hcharsAll, hsegs⟩ part hpart
    have hc : ∀ c ∈ part, (c.isAlphanum || c = '-' || c = '_') = true := by
      have := hcharsAll part hpart
      simpa [List.all_eq_true] using this
    exact (validSegment_iff_claimSegment part hc).1 (hsegs part hpart)
  · intro h
    have hc : ∀ part ∈ splitSep '/' cs,
        ∀ c ∈ part, (c.isAlphanum || c = '-' || c = '_') = true := by
      intro part hpart c hcml
      have := (h part hpart).2.2.1 c hcml
      simp only [Bool.or_eq_true, decide_eq_true_eq]
      tauto
    constructor
    · intro part hpart
      simp only [List.all_eq_true]
      exact hc part hpart
    · intro part hpart
      exact (validSegment_iff_claimSegment part (hc part hpart)).2 (h part hpart)

/-- Claim C5: SubgraphName::new accepts a string exactly when its total
length is at most 255 and every slash-separated segment is 1 to 32
characters of alphanumerics, dash and underscore, contains a letter,
begins and ends with an alphanumeric character, and is not the literal
graphql. -/
theorem subgraph_name_new_iff (s : String) :
    (SubgraphName.new s).isSome ↔ specNameOk s := by
  have hcore := name_checks_iff s.data
  unfold SubgraphName.new specNameOk
  split_ifs with h1 h2 h3
  · refine iff_of_false (by simp) ?_
    rintro ⟨hlen, hall⟩
    rw [Bool.or_eq_true] at h1
    rcases h1 with h1 | h1
    · have hd : s.data = [] := by simpa using h1
      have h0 := (hall [] (by simp [hd, splitSep])).1
      simp at h0
    · rw [decide_eq_true_eq] at h1
      omega
  · refine iff_of_false (by simp) ?_
    rintro ⟨-, hall⟩
    have hb := hcore.2 hall
    rw [Bool.and_eq_true] at hb
    rw [hb.1] at h2
    simp at h2
  · refine iff_of_false (by simp) ?_
    rintro ⟨-, hall⟩
    have hb := hcore.2 hall
    rw [Bool.and_eq_true] at hb
    rw [hb.2] at h3
    simp at h3
  · refine iff_of_true (by simp) ?_
    rw [Bool.or_eq_true] at h1
    push_neg at h1
    have h2a : (s.data.all fun c =>
        c.isAlphanum || c = '-' || c = '_' || c = '/') = true := by
      revert h2
      cases s.data.all fun c => c.isAlphanum || c = '-' || c = '_' || c = '/' <;> simp
    have h3a : ((splitSep '/' s.data).all validSegment) = true := by
      revert h3
      cases (splitSep '/' s.data).all validSegment <;> simp
    refine ⟨?_, hcore.1 (by rw [h2a, h3a]; rfl)⟩
    by_contra hgt
    exact h1.2 (by simp; omega)

/-- Claim C6: SubgraphDeploymentId::new succeeds exactly on strings of at
most 46 characters consisting only of ASCII alphanumerics. -/
theorem subgraph_deployment_id_new_iff (s : String) :
    (SubgraphDeploymentId.new s).isSome
      ↔ s.length ≤ 46 ∧ ∀ c ∈ s.data, c.isAlphanum := by
  unfold SubgraphDeploymentId.new
  split_ifs with h1 h2
  · refine iff_of_false (by simp) ?_
    rintro ⟨h, -⟩
    omega
  · refine iff_of_false (by simp) ?_
    rintro ⟨-, h⟩
    rw [show (s.data.all Char.isAlphanum) = true by
      simpa [List.all_eq_true] using h] at h2
    simp at h2
  · refine iff_of_true (by simp) ?_
    refine ⟨by omega, ?_⟩
    have h2a : (s.data.all Char.isAlphanum) = true := by simpa using h2
    simpa [List.all_eq_true] using h2a

/-! ## Store events (graph/src/components/store.rs) -/

/-- Operation kind recorded in an entity change event. -/
inductive EntityChangeOperation
  | Set
  | Removed
deriving DecidableEq, Repr

/-- Key by which an individual entity in the store can be accessed. -/
structure EntityKey where
  subgraph_id : SubgraphDeploymentId
  entity_type : String
  entity_id : String
deriving DecidableEq, Repr

/-- Entity change events emitted by store implementations. -/
structure EntityChange where
  subgraph_id : SubgraphDeploymentId
  entity_type : String
  entity_id : String
  operation : EntityChangeOperation
deriving DecidableEq, Repr

/-- Embeds EntityChange::from_key. -/
def EntityChange.from_key (key : EntityKey) (operation : EntityChangeOperation) :
    EntityChange :=
  { subgraph_id := key.subgraph_id
    entity_type := key.entity_type
    entity_id := key.entity_id
    operation := operation }

/-- A tagged, unordered set of entity changes; the Rust HashSet becomes a
Finset. -/
structure StoreEvent where
  tag : Nat
  changes : Finset EntityChange
deriving DecidableEq

/-- Embeds StoreEvent::new; the tag freshly drawn from the process-wide
atomic counter is passed explicitly, and collecting the change vector
into a HashSet becomes toFinset. -/
def StoreEvent.new (tag : Nat) (changes : List EntityChange) : StoreEvent :=
  { tag := tag, changes := changes.toFinset }

/-- Embeds the PartialEq implementation for StoreEvent: the tag is
ignored and only the change sets are compared. -/
def StoreEvent.eq (a b : StoreEvent) : Bool :=
  a.changes = b.changes

/-- Claim C8: two StoreEvents built from the same change records compare
equal under the PartialEq implementation, whatever their tags are. -/
theorem store_event_eq_ignores_tag (t1 t2 : Nat) (changes : List EntityChange) :
    StoreEvent.eq (StoreEvent.new t1 changes) (StoreEvent.new t2 changes) = true := by
  simp [StoreEvent.eq, StoreEvent.new]

/-! ## Throttled subscription (StoreEventStream::throttle_while_syncing) -/

/-- Embeds StoreEvent::accumulate: extend the pending event's change set
with the new event's changes (keeping the pending tag), or install the
new event when none is pending. -/
def StoreEvent.accumulate (ev1 : Option StoreEvent) (ev2 : StoreEvent) :
    Option StoreEvent :=
  match ev1 with
  | some e => some { e with changes := e.changes ∪ ev2.changes }
  | none => some ev2

/-- One poll result of the fused source stream as seen by the wrapper. -/
inductive SourcePoll
  | notReady
  | ready (ev : Option StoreEvent)
  | err
deriving DecidableEq

/-- One poll result of the wrapped (throttled) stream. -/
inductive PollResult
  | notReady
  | ready (ev : Option StoreEvent)
  | err
deriving DecidableEq

/-- The state captured by the poll_fn closure in throttle_while_syncing:
the buffered-error flag, the accumulated pending event and the cached
synced flag. The real-time pieces are abstracted: the periodic synced
refresh is assumed not to fire during the poll under study, and the
interval timer's expiry is the explicit shouldSend input. -/
structure ThrottleState where
  hadErr : Bool
  pending : Option StoreEvent
  synced : Bool

/-- The inner loop of the throttled poll: drain the source, accumulating
events, until it reports NotReady (deliver the pending event only if the
interval elapsed), end-of-stream (deliver the pending event), or an
error (deliver the pending event first and buffer the error, or surface
the error at once when nothing is pending). The source's successive
answers within this one wrapped poll are listed; an exhausted list
behaves like NotReady. Returns the poll result, the new pending event
and the new buffered-error flag. -/
def throttleLoop (shouldSend : Bool) :
    Option StoreEvent → List SourcePoll → PollResult × Option StoreEvent × Bool
  | pending, [] =>
    if shouldSend && pending.isSome then (.ready pending, none, false)
    else (.notReady, pending, false)
  | pending, .notReady :: _ =>
    if shouldSend && pending.isSome then (.ready pending, none, false)
    else (.notReady, pending, false)
  | pending, .ready none :: _ => (.ready pending, none, false)
  | pending, .ready (some event) :: rest =>
    throttleLoop shouldSend (StoreEvent.accumulate pending event) rest
  | pending, .err :: _ =>
    match pending with
    | some p => (.ready (some p), none, true)
    | none => (.err, none, false)

/-- One poll of the stream returned by throttle_while_syncing: surface a
buffered error first; pass the source straight through when synced;
otherwise run the accumulation loop. -/
def throttlePoll (shouldSend : Bool) (st : ThrottleState)
    (source : List SourcePoll) : PollResult × ThrottleState :=
  if st.hadErr then (.err, { st with hadErr := false })
  else if st.synced then
    match source with
    | [] => (.notReady, st)
    | .notReady :: _ => (.notReady, st)
    | .ready ev :: _ => (.ready ev, st)
    | .err :: _ => (.err, st)
  else
    let r := throttleLoop shouldSend st.pending source
    (r.1, { st with pending := r.2.1, hadErr := r.2.2 })

/-- Claim C7: in the throttled (unsynced) state, a source error arriving
while a pending event is accumulated makes the wrapped poll deliver the
pending event and buffer the error, the immediately following poll
surfaces the error, and with no pending event the error is surfaced at
once; an event accumulated in the same poll as the error is likewise
delivered before the error. -/
theorem throttle_buffers_error_behind_pending (s1 s2 s3 s4 : Bool)
    (p ev : StoreEvent) (rest rest2 next : List SourcePoll) :
    throttlePoll s1 ⟨false, some p, false⟩ (.err :: rest)
        = (.ready (some p), ⟨true, none, false⟩)
    ∧ throttlePoll s2 ⟨true, none, false⟩ next = (.err, ⟨false, none, false⟩)
    ∧ throttlePoll s3 ⟨false, none, false⟩ (.err :: rest)
        = (.err, ⟨false, none, false⟩)
    ∧ throttlePoll s4 ⟨false, none, false⟩ (.ready (some ev) :: .err :: rest2)
        = (.ready (some ev), ⟨true, none, false⟩) := by
  refine ⟨rfl, ?_, rfl, rfl⟩
  simp [throttlePoll]

/-! ## Entities and the entity cache (graph/src/components/store.rs) -/

/-- Attribute values stored in entities; the claims only need integers,
and all cache machinery is value-agnostic. -/
inductive Value
  | int (i : Int)
  | str (s : String)
deriving DecidableEq, Repr

/-- Modelled from the spec: the Entity type itself lives in
graph/src/data/store.rs, which is not among the sources; per the spec an
entity is a finite attribute-to-value map (a Rust HashMap), embedded as
an association list. -/
abbrev Entity := List (String × Value)

/-- Point lookup of an attribute in an entity. -/
def entityLookup (e : Entity) (k : String) : Option Value :=
  match e with
  | [] => none
  | (k2, v) :: rest => if k2 = k then some v else entityLookup rest k

/-- Insert or replace one attribute binding. -/
def entityUpsert (e : Entity) (k : String) (v : Value) : Entity :=
  match e with
  | [] => [(k, v)]
  | (k2, v2) :: rest =>
    if k2 = k then (k2, v) :: rest else (k2, v2) :: entityUpsert rest k v

/-- Modelled from the spec: Entity::merge (graph/src/data/store.rs, not
among the sources) performs attribute-level overwrite — every attribute
of the update is written over the base entity, and attributes absent
from the update keep their base value. -/
def entityMerge (base upd : Entity) : Entity :=
  upd.foldl (fun acc kv => entityUpsert acc kv.1 kv.2) base

/-- Map equality of entities, embedding HashMap PartialEq: both entities
bind the same attributes to the same values. -/
def entityEqv (a b : Entity) : Bool :=
  (a.map Prod.fst ++ b.map Prod.fst).all fun k => entityLookup a k == entityLookup b k

/-- Point lookup in an association map keyed by EntityKey. -/
def keyLookup {α : Type} (m : List (EntityKey × α)) (k : EntityKey) : Option α :=
  match m with
  | [] => none
  | (k2, v) :: rest => if k2 = k then some v else keyLookup rest k

/-- Insert or replace one binding in an association map keyed by
EntityKey. -/
def keyUpsert {α : Type} (m : List (EntityKey × α)) (k : EntityKey) (v : α) :
    List (EntityKey × α) :=
  match m with
  | [] => [(k, v)]
  | (k2, v2) :: rest =>
    if k2 = k then (k2, v) :: rest else (k2, v2) :: keyUpsert rest k v

/-- An entity modification derived by EntityCache::as_modifications. -/
inductive EntityModification
  | Insert (key : EntityKey) (data : Entity)
  | Overwrite (key : EntityKey) (data : Entity)
  | Remove (key : EntityKey)
deriving DecidableEq, Repr

/-- Embeds EntityModification::entity_key. -/
def EntityModification.entity_key : EntityModification → EntityKey
  | .Insert key _ => key
  | .Overwrite key _ => key
  | .Remove key => key

/-- Embeds EntityCache: current is the lazily-populated snapshot of what
the backing store returned for each touched key (an entry of none means
confirmed absent), updates is the accumulated change per key (an entry
of none means the key should be deleted). The Rust HashMaps are
association lists. -/
structure EntityCache where
  current : List (EntityKey × Option Entity)
  updates : List (EntityKey × Option Entity)
deriving Repr

/-- Embeds EntityCache::new. -/
def EntityCache.new : EntityCache := ⟨[], []⟩

/-- Embeds EntityCache::get. The backing store is a point-lookup
function; the extra list returned records the keys physically fetched
from the store during this call (empty when served from the cache). -/
def EntityCache.get (cache : EntityCache) (store : EntityKey → Option Entity)
    (key : EntityKey) : Option Entity × EntityCache × List EntityKey :=
  let r : Option Entity × EntityCache × List EntityKey :=
    match keyLookup cache.current key with
    | none =>
      let entity := store key
      (entity, { cache with current := keyUpsert cache.current key entity }, [key])
    | some data => (data, cache, [])
  match r.1, keyLookup cache.updates key with
  | currentData, none => (currentData, r.2.1, r.2.2)
  | _, some none => (none, r.2.1, r.2.2)
  | none, some (some updates) => (some updates, r.2.1, r.2.2)
  | some currentData, some (some updates) =>
    (some (entityMerge currentData updates), r.2.1, r.2.2)

/-- Embeds EntityCache::remove: mark the key for deletion, discarding
any pending update for it. -/
def EntityCache.remove (cache : EntityCache) (key : EntityKey) : EntityCache :=
  { cache with updates := keyUpsert cache.updates key none }

/-- Embeds EntityCache::set: merge onto an existing pending update, or
start a fresh pending update when the key was previously removed or
untouched. -/
def EntityCache.set (cache : EntityCache) (key : EntityKey) (entity : Entity) :
    EntityCache :=
  match keyLookup cache.updates key with
  | some (some update) =>
    { cache with updates := keyUpsert cache.updates key (some (entityMerge update entity)) }
  | some none => { cache with updates := keyUpsert cache.updates key (some entity) }
  | none => { cache with updates := keyUpsert cache.updates key (some entity) }

/-- The fill loop at the start of EntityCache::as_modifications: fetch
the current state of every key in the list through get, threading the
cache and concatenating the fetch logs. -/
def EntityCache.fillMissing (cache : EntityCache) (store : EntityKey → Option Entity) :
    List EntityKey → EntityCache × List EntityKey
  | [] => (cache, [])
  | key :: rest =>
    let r1 := cache.get store key
    let r2 := r1.2.1.fillMissing store rest
    (r2.1, r1.2.2 ++ r2.2)

/-- The loop body of as_modifications: one (key, update) entry of the
updates map reduced against the loaded current state. -/
def modificationOf (current : List (EntityKey × Option Entity))
    (ku : EntityKey × Option Entity) : Option EntityModification :=
  match keyLookup current ku.1, ku.2 with
  | some none, some updates => some (.Insert ku.1 (entityMerge [] updates))
  | some (some currentData), some updates =>
    if entityEqv currentData (entityMerge currentData updates) then none
    else some (.Overwrite ku.1 (entityMerge currentData updates))
  | some (some _), none => some (.Remove ku.1)
  | some none, none => none
  | none, _ => none

/-- Embeds EntityCache::as_modifications: load the current state of
every updated key not yet read, then reduce each pending update to at
most one EntityModification — absent plus update gives Insert, present
plus update gives Overwrite only when the merged entity differs from
current, present plus removal gives Remove, absent plus removal gives
nothing. The arm in which current has no entry for the key models the
unreachable expect panic in the source and produces nothing. Returns the
modifications and the log of keys fetched from the store. -/
def EntityCache.as_modifications (cache : EntityCache)
    (store : EntityKey → Option Entity) :
    List EntityModification × List EntityKey :=
  let missing := (cache.updates.map Prod.fst).filter
    fun key => (keyLookup cache.current key).isNone
  let r := cache.fillMissing store missing
  (r.1.updates.filterMap (modificationOf r.1.current), r.2)

/-- The concrete key of the claim C1 scenario. -/
def keyC1 : EntityKey := ⟨⟨"QmDeployment"⟩, "Thing", "K"⟩

/-- The concrete backing store of the claim C1 scenario: key K exists
with the single attribute a bound to 1. -/
def storeC1 : EntityKey → Option Entity :=
  fun k => if k = keyC1 then some [("a", Value.int 1)] else none

/-- The modifications produced in the claim C1 scenario: within one unit
of work, remove K and then set K to the single attribute b bound to 2. -/
def modsC1 : List EntityModification :=
  (((EntityCache.new.remove keyC1).set keyC1 [("b", Value.int 2)]).as_modifications
    storeC1).1

/-- Counterexample to claim C1 as stated: the scenario lands in the
present-plus-update branch and yields a single Overwrite for K, but its
payload is the update merged onto the store snapshot — it still carries
the attribute a from the store, so it is not (as a map) the entity with
only b bound to 2. -/
theorem remove_set_overwrite_payload_counterexample :
    modsC1 = [EntityModification.Overwrite keyC1 [("a", Value.int 1), ("b", Value.int 2)]]
    ∧ entityEqv [("a", Value.int 1), ("b", Value.int 2)] [("b", Value.int 2)] = false := by
  exact ⟨by decide, by decide⟩

/-- Claim C1 as amended: in the remove-then-set scenario over a store
where K exists with attribute a bound to 1, as_modifications reports
exactly one modification for K, namely Overwrite with the merged entity
binding a to 1 and b to 2 — the present-plus-update branch, not Insert
and not Remove. -/
theorem remove_set_lands_in_overwrite_branch :
    modsC1 = [EntityModification.Overwrite keyC1 [("a", Value.int 1), ("b", Value.int 2)]] := by
  decide

/-! ## Units of work against the cache, and the read-once discipline -/

/-- One operation the mapping runtime can perform against the cache
during a unit of work. -/
inductive CacheOp
  | get (key : EntityKey)
  | set (key : EntityKey) (entity : Entity)
  | remove (key : EntityKey)
deriving DecidableEq, Repr

/-- Run a sequence of cache operations, threading the cache and
concatenating the store-fetch logs of the get calls. -/
def runOps (store : EntityKey → Option Entity) :
    EntityCache → List CacheOp → EntityCache × List EntityKey
  | cache, [] => (cache, [])
  | cache, .get key :: rest =>
    let r1 := cache.get store key
    let r2 := runOps store r1.2.1 rest
    (r2.1, r1.2.2 ++ r2.2)
  | cache, .set key entity :: rest => runOps store (cache.set key entity) rest
  | cache, .remove key :: rest => runOps store (cache.remove key) rest

/-- One complete unit of work: run the operations on a fresh cache, then
reduce with as_modifications; returns the modifications together with
every store fetch performed anywhere in the unit. -/
def runUnit (store : EntityKey → Option Entity) (ops : List CacheOp) :
    List EntityModification × List EntityKey :=
  let r := runOps store EntityCache.new ops
  let m := r.1.as_modifications store
  (m.1, r.2 ++ m.2)

theorem keyLookup_keyUpsert {α : Type} (m : List (EntityKey × α))
    (k k2 : EntityKey) (v : α) :
    keyLookup (keyUpsert m k v) k2 = if k = k2 then some v else keyLookup m k2 := by
  induction m with
  | nil => simp [keyUpsert, keyLookup]
  | cons p rest ih =>
    obtain ⟨k3, v3⟩ := p
    simp only [keyUpsert]
    by_cases h3 : k3 = k
    · subst h3
      by_cases h2 : k3 = k2
      · subst h2
        simp [keyLookup]
      · simp [keyLookup, h2]
    · simp only [if_neg h3, keyLookup]
      by_cases h2 : k3 = k2
      · subst h2
        have hk2 : ¬ k = k3 := fun h => h3 h.symm
        simp [hk2]
      · simp [h2, ih]

/-- The store-read discipline of one cache-transforming step: any key it
fetches appears at most once in its log, was absent from the snapshot
map before and is present after, and present snapshot entries stay
present. -/
def cacheStep (c c2 : EntityCache) (log : List EntityKey) : Prop :=
  (∀ k, log.count k ≤ 1)
  ∧ (∀ k ∈ log, keyLookup c.current k = none ∧ (keyLookup c2.current k).isSome)
  ∧ (∀ k, (keyLookup c.current k).isSome → (keyLookup c2.current k).isSome)

theorem cacheStep_refl (c : EntityCache) : cacheStep c c [] := by
  refine ⟨fun k => by simp, fun k hk => absurd hk (by simp), fun k h => h⟩

theorem cacheStep_comp {c c1 c2 : EntityCache} {l1 l2 : List EntityKey}
    (h1 : cacheStep c c1 l1) (h2 : cacheStep c1 c2 l2) :
    cacheStep c c2 (l1 ++ l2) := by
  obtain ⟨h1cnt, h1mem, h1mono⟩ := h1
  obtain ⟨h2cnt, h2mem, h2mono⟩ := h2
  refine ⟨?_, ?_, fun k h => h2mono k (h1mono k h)⟩
  · intro k
    rw [List.count_append]
    by_cases hk1 : k ∈ l1
    · have hc2 : l2.count k = 0 := by
        rw [List.count_eq_zero]
        intro hk2
        have hs := (h1mem k hk1).2
        have hn := (h2mem k hk2).1
        rw [hn] at hs
        simp at hs
      have := h1cnt k
      omega
    · have hc1 : l1.count k = 0 := by rw [List.count_eq_zero]; exact hk1
      have := h2cnt k
      omega
  · intro k hk
    rcases List.mem_append.1 hk with hk | hk
    · exact ⟨(h1mem k hk).1, h2mono k (h1mem k hk).2⟩
    · refine ⟨?_, (h2mem k hk).2⟩
      by_cases hs : (keyLookup c.current k).isSome
      · have := h1mono k hs
        rw [(h2mem k hk).1] at this
        simp at this
      · exact Option.not_isSome_iff_eq_none.1 hs

/-- The second stage of EntityCache::get never changes the cache or the
log produced by the first stage. -/
theorem EntityCache.get_snd (c : EntityCache) (store : EntityKey → Option Entity)
    (key : EntityKey) :
    (c.get store key).2
      = match keyLookup c.current key with
        | none => ({ c with current := keyUpsert c.current key (store key) }, [key])
        | some _ => (c, []) := by
  unfold EntityCache.get
  cases hcur : keyLookup c.current key with
  | none =>
    cases hupd : keyLookup c.updates key with
    | none => cases hst : store key <;> rfl
    | some u =>
      cases u with
      | none => cases hst : store key <;> rfl
      | some e => cases hst : store key <;> rfl
  | some d =>
    cases hupd : keyLookup c.updates key with
    | none => cases d <;> rfl
    | some u =>
      cases u with
      | none => cases d <;> rfl
      | some e => cases d <;> rfl

theorem cacheStep_get (c : EntityCache) (store : EntityKey → Option Entity)
    (key : EntityKey) :
    cacheStep c (c.get store key).2.1 (c.get store key).2.2 := by
  rw [EntityCache.get_snd]
  cases hcur : keyLookup c.current key with
  | none =>
    refine ⟨?_, ?_, ?_⟩
    · intro k
      calc ([key].count k) ≤ [key].length := List.count_le_length _ _
        _ = 1 := rfl
    · intro k hk
      have hkey : k = key := by simpa using hk
      subst hkey
      refine ⟨hcur, ?_⟩
      simp [keyLookup_keyUpsert]
    · intro k h
      simp only [keyLookup_keyUpsert]
      by_cases hkk : key = k
      · simp [hkk]
      · simpa [hkk] using h
  | some d => exact cacheStep_refl c

theorem EntityCache.set_current (c : EntityCache) (key : EntityKey) (entity : Entity) :
    (c.set key entity).current = c.current := by
  unfold EntityCache.set
  cases keyLookup c.updates key with
  | none => rfl
  | some u => cases u <;> rfl

theorem cacheStep_set (c : EntityCache) (key : EntityKey) (entity : Entity) :
    cacheStep c (c.set key entity) [] := by
  refine ⟨fun k => by simp, fun k hk => absurd hk (by simp), fun k h => ?_⟩
  rw [EntityCache.set_current]
  exact h

theorem cacheStep_remove (c : EntityCache) (key : EntityKey) :
    cacheStep c (c.remove key) [] := by
  refine ⟨fun k => by simp, fun k hk => absurd hk (by simp), fun k h => h⟩

theorem cacheStep_fillMissing (store : EntityKey → Option Entity)
    (keys : List EntityKey) :
    ∀ c : EntityCache,
      cacheStep c (c.fillMissing store keys).1 (c.fillMissing store keys).2 := by
  induction keys with
  | nil =>
    intro c
    exact cacheStep_refl c
  | cons key rest ih =>
    intro c
    exact cacheStep_comp (cacheStep_get c store key) (ih (c.get store key).2.1)

theorem cacheStep_runOps (store : EntityKey → Option Entity) (ops : List CacheOp) :
    ∀ c : EntityCache,
      cacheStep c (runOps store c ops).1 (runOps store c ops).2 := by
  induction ops with
  | nil =>
    intro c
    exact cacheStep_refl c
  | cons op rest ih =>
    intro c
    cases op with
    | get key =>
      exact cacheStep_comp (cacheStep_get c store key) (ih (c.get store key).2.1)
    | set key entity =>
      have := cacheStep_comp (cacheStep_set c key entity) (ih (c.set key entity))
      simpa using this
    | remove key =>
      have := cacheStep_comp (cacheStep_remove c key) (ih (c.remove key))
      simpa using this

theorem cacheStep_as_modifications (c : EntityCache)
    (store : EntityKey → Option Entity) :
    cacheStep c
      (c.fillMissing store ((c.updates.map Prod.fst).filter
        fun key => (keyLookup c.current key).isNone)).1
      (c.as_modifications store).2 :=
  cacheStep_fillMissing store _ c

/-- Claim C9: across any sequence of cache operations within one unit of
work — including the fill performed by as_modifications — the backing
store's point lookup for any given key is invoked at most once; the
first fetch memoizes the result (a memoized absence included) and every
later read is served from the cache. -/
theorem at_most_one_store_read_per_key (store : EntityKey → Option Entity)
    (ops : List CacheOp) (key : EntityKey) :
    ((runUnit store ops).2).count key ≤ 1 := by
  have h1 := cacheStep_runOps store ops EntityCache.new
  have h2 := cacheStep_as_modifications (runOps store EntityCache.new ops).1 store
  exact (cacheStep_comp h1 h2).1 key

/-! ## Frame and uniqueness properties of as_modifications -/

theorem keyLookup_eq_none_iff {α : Type} (m : List (EntityKey × α)) (k : EntityKey) :
    keyLookup m k = none ↔ k ∉ m.map Prod.fst := by
  induction m with
  | nil => simp [keyLookup]
  | cons p rest ih =>
    obtain ⟨k2, v⟩ := p
    simp only [keyLookup, List.map_cons, List.mem_cons]
    by_cases h : k2 = k
    · subst h
      simp
    · rw [if_neg h, ih]
      constructor
      · intro hk
        rintro (h1 | h1)
        · exact h h1.symm
        · exact hk h1
      · intro hk h1
        exact hk (Or.inr h1)

theorem keyUpsert_keys_mem {α : Type} (m : List (EntityKey × α)) (k k2 : EntityKey)
    (v : α) :
    k2 ∈ (keyUpsert m k v).map Prod.fst ↔ k2 = k ∨ k2 ∈ m.map Prod.fst := by
  induction m with
  | nil => simp [keyUpsert]
  | cons p rest ih =>
    obtain ⟨k3, v3⟩ := p
    simp only [keyUpsert]
    by_cases h3 : k3 = k
    · rw [if_pos h3]
      subst h3
      simp only [List.map_cons, List.mem_cons]
      tauto
    · rw [if_neg h3]
      simp only [List.map_cons, List.mem_cons, ih]
      tauto

theorem keyUpsert_keys_nodup {α : Type} (m : List (EntityKey × α)) (k : EntityKey)
    (v : α) (h : (m.map Prod.fst).Nodup) :
    ((keyUpsert m k v).map Prod.fst).Nodup := by
  induction m with
  | nil => simp [keyUpsert]
  | cons p rest ih =>
    obtain ⟨k3, v3⟩ := p
    simp only [List.map_cons, List.nodup_cons] at h
    obtain ⟨hnot, hrest⟩ := h
    simp only [keyUpsert]
    by_cases h3 : k3 = k
    · rw [if_pos h3]
      subst h3
      simp only [List.map_cons, List.nodup_cons]
      exact ⟨hnot, hrest⟩
    · rw [if_neg h3]
      simp only [List.map_cons, List.nodup_cons]
      refine ⟨?_, ih hrest⟩
      rw [keyUpsert_keys_mem]
      rintro (h | h)
      · exact h3 h
      · exact hnot h

theorem EntityCache.get_updates (c : EntityCache) (store : EntityKey → Option Entity)
    (key : EntityKey) : (c.get store key).2.1.updates = c.updates := by
  rw [EntityCache.get_snd]
  cases keyLookup c.current key <;> rfl

theorem EntityCache.set_updates (c : EntityCache) (key : EntityKey) (entity : Entity) :
    ∃ v, (c.set key entity).updates = keyUpsert c.updates key (some v) := by
  unfold EntityCache.set
  cases h : keyLookup c.updates key with
  | none => exact ⟨entity, rfl⟩
  | some u =>
    cases u with
    | none => exact ⟨entity, rfl⟩
    | some e => exact ⟨entityMerge e entity, rfl⟩

theorem fillMissing_updates (store : EntityKey → Option Entity)
    (keys : List EntityKey) :
    ∀ c : EntityCache, (c.fillMissing store keys).1.updates = c.updates := by
  induction keys with
  | nil => intro c; rfl
  | cons key rest ih =>
    intro c
    show ((c.get store key).2.1.fillMissing store rest).1.updates = _
    rw [ih, EntityCache.get_updates]

theorem runOps_updates_nodup (store : EntityKey → Option Entity) (ops : List CacheOp) :
    ∀ c : EntityCache, (c.updates.map Prod.fst).Nodup →
      ((runOps store c ops).1.updates.map Prod.fst).Nodup := by
  induction ops with
  | nil => intro c h; exact h
  | cons op rest ih =>
    intro c h
    cases op with
    | get key =>
      apply ih
      rw [EntityCache.get_updates]
      exact h
    | set key entity =>
      apply ih
      obtain ⟨v, hv⟩ := EntityCache.set_updates c key entity
      rw [hv]
      exact keyUpsert_keys_nodup _ _ _ h
    | remove key =>
      apply ih
      show ((keyUpsert c.updates key none).map Prod.fst).Nodup
      exact keyUpsert_keys_nodup _ _ _ h

/-- Whether a cache operation writes (sets or removes) the given key. -/
def opTouches (key : EntityKey) : CacheOp → Bool
  | .get _ => false
  | .set k _ => k = key
  | .remove k => k = key

theorem runOps_updates_untouched (store : EntityKey → Option Entity)
    (key : EntityKey) (ops : List CacheOp) :
    ∀ c : EntityCache, (ops.all fun op => !opTouches key op) = true →
      keyLookup (runOps store c ops).1.updates key = keyLookup c.updates key := by
  induction ops with
  | nil => intro c _; rfl
  | cons op rest ih =>
    intro c hall
    rw [List.all_cons, Bool.and_eq_true] at hall
    obtain ⟨hop, hrest⟩ := hall
    cases op with
    | get k2 =>
      show keyLookup (runOps store (c.get store k2).2.1 rest).1.updates key = _
      rw [ih _ hrest, EntityCache.get_updates]
    | set k2 entity =>
      have hk2 : ¬ k2 = key := by simpa [opTouches] using hop
      show keyLookup (runOps store (c.set k2 entity) rest).1.updates key = _
      rw [ih _ hrest]
      obtain ⟨v, hv⟩ := EntityCache.set_updates c k2 entity
      rw [hv, keyLookup_keyUpsert, if_neg hk2]
    | remove k2 =>
      have hk2 : ¬ k2 = key := by simpa [opTouches] using hop
      show keyLookup (runOps store (c.remove k2) rest).1.updates key = _
      rw [ih _ hrest]
      show keyLookup (keyUpsert c.updates k2 none) key = _
      rw [keyLookup_keyUpsert, if_neg hk2]

theorem modificationOf_key (current : List (EntityKey × Option Entity))
    (ku : EntityKey × Option Entity) (m : EntityModification)
    (h : modificationOf current ku = some m) : m.entity_key = ku.1 := by
  unfold modificationOf at h
  split at h
  · cases h
    rfl
  · split at h
    · cases h
    · cases h
      rfl
  · cases h
    rfl
  · cases h
  · cases h

theorem nodup_keys_filterMap (current : List (EntityKey × Option Entity))
    (l : List (EntityKey × Option Entity)) (h : (l.map Prod.fst).Nodup) :
    ((l.filterMap (modificationOf current)).map EntityModification.entity_key).Nodup := by
  induction l with
  | nil => simp
  | cons ku rest ih =>
    simp only [List.map_cons, List.nodup_cons] at h
    obtain ⟨hnot, hrest⟩ := h
    simp only [List.filterMap_cons]
    cases hm : modificationOf current ku with
    | none => exact ih hrest
    | some m =>
      simp only [List.map_cons, List.nodup_cons]
      refine ⟨?_, ih hrest⟩
      intro hmem
      rw [List.mem_map] at hmem
      obtain ⟨m2, hm2mem, hm2key⟩ := hmem
      rw [List.mem_filterMap] at hm2mem
      obtain ⟨ku2, hku2, hfku2⟩ := hm2mem
      apply hnot
      have e1 := modificationOf_key current ku m hm
      have e2 := modificationOf_key current ku2 m2 hfku2
      have hkeq : ku.1 = ku2.1 := by rw [← e1, ← hm2key, e2]
      rw [hkeq]
      exact List.mem_map_of_mem Prod.fst hku2

theorem as_modifications_fst (c : EntityCache) (store : EntityKey → Option Entity) :
    (c.as_modifications store).1
      = c.updates.filterMap (modificationOf
          ((c.fillMissing store ((c.updates.map Prod.fst).filter
            fun key => (keyLookup c.current key).isNone)).1.current)) := by
  simp only [EntityCache.as_modifications]
  rw [fillMissing_updates]

/-- Claim C10: as_modifications of a cache built by any sequence of
operations in one unit of work yields at most one EntityModification per
EntityKey (the listed keys are pairwise distinct), and a key that was
only read — never set or removed — never appears in the output, so reads
alone produce no store mutation. -/
theorem as_modifications_unique_keys_no_read_mutations
    (store : EntityKey → Option Entity) (ops : List CacheOp) :
    ((((runOps store EntityCache.new ops).1.as_modifications store).1).map
        EntityModification.entity_key).Nodup
    ∧ ∀ key : EntityKey, (ops.all fun op => !opTouches key op) = true →
        ∀ m ∈ ((runOps store EntityCache.new ops).1.as_modifications store).1,
          m.entity_key ≠ key := by
  have hnodup0 : ((EntityCache.new.updates.map Prod.fst)).Nodup := by
    simp [EntityCache.new]
  have hrun := runOps_updates_nodup store ops EntityCache.new hnodup0
  constructor
  · rw [as_modifications_fst]
    exact nodup_keys_filterMap _ _ hrun
  · intro key htouch m hm
    rw [as_modifications_fst, List.mem_filterMap] at hm
    obtain ⟨ku, hkumem, hfku⟩ := hm
    have hupd : keyLookup (runOps store EntityCache.new ops).1.updates key = none := by
      rw [runOps_updates_untouched store key ops EntityCache.new htouch]
      rfl
    rw [keyLookup_eq_none_iff] at hupd
    intro hkey
    exact hupd (by
      rw [← hkey, modificationOf_key _ ku m hfku]
      exact List.mem_map_of_mem Prod.fst hkumem)

/-- A concrete store and operation sequence exercising the frame
property: one read of key A and one write of key B. -/
def keyA : EntityKey := ⟨⟨"QmDeployment"⟩, "Thing", "A"⟩

def keyB : EntityKey := ⟨⟨"QmDeployment"⟩, "Thing", "B"⟩

def store0 : EntityKey → Option Entity := fun _ => none

def ops0 : List CacheOp := [.get keyA, .set keyB [("x", Value.int 1)]]

/-- Witness for claim C10 at a concrete input: after reading A and
writing B, the output keys are pairwise distinct and the modification
produced (the insert of B) is not keyed by the merely-read A. -/
theorem as_modifications_unique_keys_no_read_mutations_witness :
    (EntityModification.Insert keyB [("x", Value.int 1)]).entity_key ≠ keyA
    ∧ ((((runOps store0 EntityCache.new ops0).1.as_modifications store0).1).map
        EntityModification.entity_key).Nodup :=
  ⟨(as_modifications_unique_keys_no_read_mutations store0 ops0).2 keyA (by decide)
      (EntityModification.Insert keyB [("x", Value.int 1)]) (by decide),
    (as_modifications_unique_keys_no_read_mutations store0 ops0).1⟩

/-! ## Version summaries and assignment reconciliation
(graph/src/components/store.rs, core/src/subgraph/registrar.rs) -/

/-- Node identifier; the NodeId newtype is modelled as a bare string. -/
structure NodeId where
  id : String
deriving DecidableEq, Repr

/-- Modelled from the spec (section 3): SubgraphVersionSummary, the
derived and never persisted record used for before/after comparison; the
struct itself is declared in graph/src/data/subgraph/schema.rs, which is
not among the sources. -/
structure SubgraphVersionSummary where
  id : String
  subgraph_id : String
  deployment_id : SubgraphDeploymentId
  pending : Bool
  current : Bool
deriving DecidableEq, Repr

/-- The assignment-related metadata operations that reconcile_assignments
produces. Modelled from the spec: the expansion of
SubgraphDeploymentAssignmentEntity::write_operations (schema.rs, not
among the sources) is a single create operation binding the deployment
to the node. -/
inductive AssignmentOp
  | removeAssignment (deployment_id : SubgraphDeploymentId)
  | createAssignment (deployment_id : SubgraphDeploymentId) (node_id : NodeId)
deriving DecidableEq, Repr

/-- Embeds the should_have_assignment helper inside
Store::reconcile_assignments. -/
def should_have_assignment (version : SubgraphVersionSummary) : Bool :=
  version.pending || version.current

/-- The deployments that should carry an assignment according to a list
of version summaries: the deployment ids of summaries that are pending
or current, collected into a set (the Rust HashSet becomes a
deduplicated list). -/
def activeAssignments (l : List SubgraphVersionSummary) : List SubgraphDeploymentId :=
  ((l.filter should_have_assignment).map SubgraphVersionSummary.deployment_id).dedup

/-- Set difference of the active-assignment sets of two summary lists:
deployments active in the first but not in the second. -/
def assignmentDiff (b a : List SubgraphVersionSummary) : List SubgraphDeploymentId :=
  (activeAssignments b).filter fun d => decide (d ∉ activeAssignments a)

/-- Embeds Store::reconcile_assignments: one remove operation per
deployment losing its assignment (active before but not after) and one
create operation bound to the node per deployment gaining one (active
after but not before); the expect panic hit when a create is needed
without a node id becomes none. -/
def reconcile_assignments (versions_before versions_after : List SubgraphVersionSummary)
    (node_id : Option NodeId) : Option (List AssignmentOp) :=
  match node_id with
  | some n =>
    some ((assignmentDiff versions_before versions_after).map AssignmentOp.removeAssignment
      ++ (assignmentDiff versions_after versions_before).map (AssignmentOp.createAssignment · n))
  | none =>
    if (assignmentDiff versions_after versions_before).isEmpty then
      some ((assignmentDiff versions_before versions_after).map AssignmentOp.removeAssignment)
    else none

/-- The spec-side condition of claim C3: the deployment id has some
summary in the list marked pending or current. -/
def deploymentActive (l : List SubgraphVersionSummary) (d : SubgraphDeploymentId) :
    Prop :=
  ∃ v ∈ l, (v.pending = true ∨ v.current = true) ∧ v.deployment_id = d

theorem mem_active_dedup (l : List SubgraphVersionSummary) (d : SubgraphDeploymentId) :
    (d ∈ ((l.filter should_have_assignment).map
        SubgraphVersionSummary.deployment_id).dedup)
      ↔ deploymentActive l d := by
  rw [List.mem_dedup]
  simp only [List.mem_map, List.mem_filter, should_have_assignment,
    Bool.or_eq_true, deploymentActive]
  constructor
  · rintro ⟨v, ⟨hv, hpc⟩, hd⟩
    exact ⟨v, hv, hpc, hd⟩
  · rintro ⟨v, hv, hpc, hd⟩
    exact ⟨v, ⟨hv, hpc⟩, hd⟩

theorem count_map_nodup {α β : Type} [DecidableEq α] [DecidableEq β]
    (f : α → β) (hf : Function.Injective f) (l : List α) (h : l.Nodup) (d : α) :
    (l.map f).count (f d) = if d ∈ l then 1 else 0 := by
  have hn : (l.map f).Nodup := h.map hf
  by_cases hd : d ∈ l
  · rw [if_pos hd]
    exact List.count_eq_one_of_mem hn (List.mem_map_of_mem f hd)
  · rw [if_neg hd]
    rw [List.count_eq_zero]
    intro hm
    rw [List.mem_map] at hm
    obtain ⟨a, ha, hfa⟩ := hm
    exact hd (hf hfa ▸ ha)

theorem removeAssignment_injective : Function.Injective AssignmentOp.removeAssignment := by
  intro a b h
  injection h

theorem createAssignment_injective (n : NodeId) :
    Function.Injective (AssignmentOp.createAssignment · n) := by
  intro a b h
  injection h

theorem count_remove_in_creates (l : List SubgraphDeploymentId)
    (d : SubgraphDeploymentId) (n : NodeId) :
    (l.map (AssignmentOp.createAssignment · n)).count (AssignmentOp.removeAssignment d)
      = 0 := by
  rw [List.count_eq_zero]
  intro hm
  rw [List.mem_map] at hm
  obtain ⟨a, -, ha⟩ := hm
  cases ha

theorem count_create_in_removes (l : List SubgraphDeploymentId)
    (d : SubgraphDeploymentId) (n : NodeId) :
    (l.map AssignmentOp.removeAssignment).count (AssignmentOp.createAssignment d n)
      = 0 := by
  rw [List.count_eq_zero]
  intro hm
  rw [List.mem_map] at hm
  obtain ⟨a, -, ha⟩ := hm
  cases ha

theorem count_create_diff_node (l : List SubgraphDeploymentId)
    (d : SubgraphDeploymentId) (n n2 : NodeId) (h : ¬ n2 = n) :
    (l.map (AssignmentOp.createAssignment · n)).count (AssignmentOp.createAssignment d n2)
      = 0 := by
  rw [List.count_eq_zero]
  intro hm
  rw [List.mem_map] at hm
  obtain ⟨a, -, ha⟩ := hm
  injection ha with h1 h2
  exact h h2.symm

instance (l : List SubgraphVersionSummary) (d : SubgraphDeploymentId) :
    Decidable (deploymentActive l d) := by
  unfold deploymentActive
  infer_instance

theorem mem_activeAssignments (l : List SubgraphVersionSummary)
    (d : SubgraphDeploymentId) :
    d ∈ activeAssignments l ↔ deploymentActive l d := by
  unfold activeAssignments
  exact mem_active_dedup l d

theorem mem_assignmentDiff (b a : List SubgraphVersionSummary)
    (d : SubgraphDeploymentId) :
    d ∈ assignmentDiff b a ↔ deploymentActive b d ∧ ¬ deploymentActive a d := by
  unfold assignmentDiff
  rw [List.mem_filter]
  simp only [decide_eq_true_eq]
  rw [mem_activeAssignments]
  constructor
  · rintro ⟨h1, h2⟩
    exact ⟨h1, fun h => h2 ((mem_activeAssignments a d).2 h)⟩
  · rintro ⟨h1, h2⟩
    exact ⟨h1, fun h => h2 ((mem_activeAssignments a d).1 h)⟩

theorem nodup_assignmentDiff (b a : List SubgraphVersionSummary) :
    (assignmentDiff b a).Nodup :=
  (List.nodup_dedup _).filter _

theorem count_diff_map {β : Type} [DecidableEq β] (f : SubgraphDeploymentId → β)
    (hf : Function.Injective f) (b a : List SubgraphVersionSummary)
    (d : SubgraphDeploymentId) :
    ((assignmentDiff b a).map f).count (f d)
      = if deploymentActive b d ∧ ¬ deploymentActive a d then 1 else 0 := by
  rw [count_map_nodup f hf _ (nodup_assignmentDiff b a) d]
  exact if_congr (mem_assignmentDiff b a d) rfl rfl

/-- Claim C3: for every pair of summary lists, reconcile_assignments
returns exactly one remove-assignment operation per deployment id active
(pending or current) before but not after, exactly one create-assignment
operation bound to node_id per deployment id active after but not
before, no operation for deployments in both or neither set, and the
source's expect panic (modelled by none) fires exactly when a create is
required while node_id is None. -/
theorem reconcile_assignments_sym_diff
    (versions_before versions_after : List SubgraphVersionSummary)
    (node_id : Option NodeId) :
    (reconcile_assignments versions_before versions_after node_id = none
      ↔ node_id = none ∧ ∃ d, deploymentActive versions_after d
          ∧ ¬ deploymentActive versions_before d)
    ∧ ∀ ops, reconcile_assignments versions_before versions_after node_id = some ops →
        (∀ d : SubgraphDeploymentId,
          ops.count (AssignmentOp.removeAssignment d)
            = if deploymentActive versions_before d
                ∧ ¬ deploymentActive versions_after d then 1 else 0)
        ∧ ∀ d : SubgraphDeploymentId, ∀ n : NodeId,
          ops.count (AssignmentOp.createAssignment d n)
            = if node_id = some n ∧ deploymentActive versions_after d
                ∧ ¬ deploymentActive versions_before d then 1 else 0 := by
  have hex : ¬ (assignmentDiff versions_after versions_before).isEmpty = true
      ↔ ∃ d, deploymentActive versions_after d
          ∧ ¬ deploymentActive versions_before d := by
    rw [List.isEmpty_iff]
    constructor
    · intro h
      rcases hd : assignmentDiff versions_after versions_before with _ | ⟨d, rest⟩
      · exact absurd hd h
      · exact ⟨d, (mem_assignmentDiff _ _ d).1
          (by rw [hd]; exact List.mem_cons_self d rest)⟩
    · rintro ⟨d, hd⟩ hnil
      have := (mem_assignmentDiff versions_after versions_before d).2 hd
      rw [hnil] at this
      exact absurd this (List.not_mem_nil d)
  cases node_id with
  | some n0 =>
    constructor
    · constructor
      · intro h
        exact absurd h (by simp [reconcile_assignments])
      · rintro ⟨h, -⟩
        exact Option.noConfusion h
    · intro ops hops
      have hops2 : (assignmentDiff versions_before versions_after).map
            AssignmentOp.removeAssignment
          ++ (assignmentDiff versions_after versions_before).map
            (AssignmentOp.createAssignment · n0) = ops := by
        have : reconcile_assignments versions_before versions_after (some n0)
            = some ((assignmentDiff versions_before versions_after).map
                AssignmentOp.removeAssignment
              ++ (assignmentDiff versions_after versions_before).map
                (AssignmentOp.createAssignment · n0)) := rfl
        rw [this] at hops
        exact Option.some.inj hops
      subst hops2
      constructor
      · intro d
        rw [List.count_append, count_diff_map _ removeAssignment_injective,
          count_remove_in_creates, Nat.add_zero]
      · intro d n
        rw [List.count_append, count_create_in_removes]
        by_cases hn : n = n0
        · subst hn
          rw [count_diff_map _ (createAssignment_injective n)]
          simp
        · rw [count_create_diff_node _ _ _ _ hn]
          have hnc : ¬ (n0 = n ∧ deploymentActive versions_after d
              ∧ ¬ deploymentActive versions_before d) := by
            rintro ⟨h1, -⟩
            exact hn h1.symm
          simp [hnc]
  | none =>
    have hred : reconcile_assignments versions_before versions_after none
        = if (assignmentDiff versions_after versions_before).isEmpty then
            some ((assignmentDiff versions_before versions_after).map
              AssignmentOp.removeAssignment)
          else none := rfl
    by_cases hadd : (assignmentDiff versions_after versions_before).isEmpty = true
    · rw [hred, if_pos hadd]
      constructor
      · constructor
        · intro h
          exact absurd h (by simp)
        · rintro ⟨-, hd⟩
          exact absurd hadd (hex.2 hd)
      · intro ops hops
        have hops2 : (assignmentDiff versions_before versions_after).map
            AssignmentOp.removeAssignment = ops := Option.some.inj hops
        subst hops2
        constructor
        · intro d
          rw [count_diff_map _ removeAssignment_injective]
        · intro d n
          rw [count_create_in_removes]
          have hnc : ¬ ((none : Option NodeId) = some n
              ∧ deploymentActive versions_after d
              ∧ ¬ deploymentActive versions_before d) := by
            rintro ⟨h1, -⟩
            exact Option.noConfusion h1
          simp [hnc]
    · rw [hred, if_neg hadd]
      constructor
      · constructor
        · intro _
          exact ⟨rfl, hex.1 hadd⟩
        · intro _
          rfl
      · intro ops hops
        exact absurd hops (by simp)

/-- Concrete data for the claim C3 witness: one deployment active before
only, one active after only. -/
def depOld : SubgraphDeploymentId := ⟨"QmOld"⟩

def depNew : SubgraphDeploymentId := ⟨"QmNew"⟩

def summariesBefore0 : List SubgraphVersionSummary :=
  [⟨"v1", "sg", depOld, false, true⟩]

def summariesAfter0 : List SubgraphVersionSummary :=
  [⟨"v1", "sg", depOld, false, false⟩, ⟨"v2", "sg", depNew, true, false⟩]

def node0 : NodeId := ⟨"node_1"⟩

/-- The operation list reconcile_assignments produces in the witness
scenario. -/
def opsC3 : List AssignmentOp :=
  [AssignmentOp.removeAssignment depOld, AssignmentOp.createAssignment depNew node0]

/-- Witness for claim C3 at concrete inputs: switching the active
deployment from QmOld to QmNew yields exactly one remove for QmOld and
exactly one create for QmNew bound to the node. -/
theorem reconcile_assignments_sym_diff_witness :
    reconcile_assignments summariesBefore0 summariesAfter0 (some node0) = some opsC3
    ∧ opsC3.count (AssignmentOp.removeAssignment depOld) = 1
    ∧ opsC3.count (AssignmentOp.createAssignment depNew node0) = 1 :=
  ⟨by decide,
    by
      have h := ((reconcile_assignments_sym_diff summariesBefore0 summariesAfter0
        (some node0)).2 opsC3 (by decide)).1 depOld
      rw [h]
      decide,
    by
      have h := ((reconcile_assignments_sym_diff summariesBefore0 summariesAfter0
        (some node0)).2 opsC3 (by decide)).2 depNew node0
      rw [h]
      decide⟩

/-! ## Version switching in create_subgraph_version
(core/src/subgraph/registrar.rs) -/

/-- The two version switching modes of the registrar. -/
inductive SubgraphVersionSwitchingMode
  | Instant
  | Synced
deriving DecidableEq, Repr

/-- Embeds the simulation of version_summaries_after in
create_subgraph_version: given the summaries read before the operation,
the subgraph's current and pending version ids, whether the current
version's deployment is fully synced, and the identity of the version
entity about to be created, compute the summaries as they will stand
after the operation. -/
def version_summaries_after (mode : SubgraphVersionSwitchingMode)
    (version_summaries_before : List SubgraphVersionSummary)
    (current_version_id_opt pending_version_id_opt : Option String)
    (current_is_synced : Bool) (version_entity_id subgraph_entity_id : String)
    (manifest_id : SubgraphDeploymentId) : List SubgraphVersionSummary :=
  match mode with
  | .Instant =>
    (version_summaries_before.map fun version_summary =>
      let version_summary :=
        if pending_version_id_opt = some version_summary.id then
          { version_summary with pending := false }
        else version_summary
      if current_version_id_opt = some version_summary.id then
        { version_summary with current := false }
      else version_summary)
    ++ [{ id := version_entity_id, subgraph_id := subgraph_entity_id,
          deployment_id := manifest_id, pending := false, current := true }]
  | .Synced =>
    if current_version_id_opt.isSome then
      (version_summaries_before.map fun version_summary =>
        let version_summary :=
          if pending_version_id_opt = some version_summary.id then
            { version_summary with pending := false }
          else version_summary
        if current_is_synced = false
            ∧ current_version_id_opt = some version_summary.id then
          { version_summary with current := false }
        else version_summary)
      ++ [{ id := version_entity_id, subgraph_id := subgraph_entity_id,
            deployment_id := manifest_id, pending := current_is_synced,
            current := !current_is_synced }]
    else
      version_summaries_before
      ++ [{ id := version_entity_id, subgraph_id := subgraph_entity_id,
            deployment_id := manifest_id, pending := false, current := true }]

/-- Embeds the computation of current_is_synced in
create_subgraph_version: the store is consulted only when the subgraph
has a current version; otherwise the flag is false. -/
def current_is_synced_of (current_version_hash_opt : Option SubgraphDeploymentId)
    (is_deployment_synced : SubgraphDeploymentId → Bool) : Bool :=
  match current_version_hash_opt with
  | some hash => is_deployment_synced hash
  | none => false

/-- The update of the Subgraph entity's version pointers performed at
the end of create_subgraph_version; a field of none means the pointer is
left untouched, some v means it is set to v. The expansion of
SubgraphEntity::update_pending_version_operations and
update_current_version_operations (schema.rs, not among the sources) is
modelled per the spec as setting the named pointer. -/
structure SubgraphPointerUpdate where
  pendingVersion : Option (Option String)
  currentVersion : Option (Option String)
deriving DecidableEq, Repr

/-- Embeds the pointer-update match at the end of
create_subgraph_version. -/
def subgraph_pointer_update (mode : SubgraphVersionSwitchingMode)
    (current_is_synced : Bool) (version_entity_id : String) : SubgraphPointerUpdate :=
  match mode with
  | .Instant => ⟨some none, some (some version_entity_id)⟩
  | .Synced =>
    if current_is_synced then ⟨some (some version_entity_id), none⟩
    else ⟨some none, some (some version_entity_id)⟩

/-- Claim C2: the after-summaries and pointer updates computed by
create_subgraph_version in Synced mode. With no current version the new
version is appended marked current and not pending (and since the synced
flag is computed false in that case, the pointers become current := new,
pending := none). With a synced current version, the new version is
appended marked pending, the previous pending version's pending flag is
cleared, every other flag — including the current version's current flag
— is untouched, and the pointer update sets pending := new. With an
unsynced current version, the new version is appended marked current,
the previous pending's pending flag and the previous current's current
flag are cleared, and the pointers become current := new, pending :=
none. -/
theorem synced_mode_switching (before : List SubgraphVersionSummary)
    (pendId : Option String) (cid : String) (synced : Bool)
    (newId sgId : String) (dep : SubgraphDeploymentId)
    (is_deployment_synced : SubgraphDeploymentId → Bool) :
    (version_summaries_after .Synced before none pendId synced newId sgId dep
      = before ++ [{ id := newId, subgraph_id := sgId, deployment_id := dep,
                     pending := false, current := true }])
    ∧ (subgraph_pointer_update .Synced (current_is_synced_of none is_deployment_synced)
        newId = ⟨some none, some (some newId)⟩)
    ∧ (version_summaries_after .Synced before (some cid) pendId true newId sgId dep
      = (before.map fun v =>
          { v with pending := if pendId = some v.id then false else v.pending })
        ++ [{ id := newId, subgraph_id := sgId, deployment_id := dep,
              pending := true, current := false }])
    ∧ (subgraph_pointer_update .Synced true newId = ⟨some (some newId), none⟩)
    ∧ (version_summaries_after .Synced before (some cid) pendId false newId sgId dep
      = (before.map fun v =>
          { v with
            pending := if pendId = some v.id then false else v.pending,
            current := if (some cid : Option String) = some v.id then false
              else v.current })
        ++ [{ id := newId, subgraph_id := sgId, deployment_id := dep,
              pending := false, current := true }])
    ∧ (subgraph_pointer_update .Synced false newId = ⟨some none, some (some newId)⟩) := by
  refine ⟨rfl, rfl, ?_, rfl, ?_, rfl⟩
  · show ((before.map fun version_summary =>
        let version_summary :=
          if pendId = some version_summary.id then
            { version_summary with pending := false }
          else version_summary
        if true = false ∧ (some cid : Option String) = some version_summary.id then
          { version_summary with current := false }
        else version_summary)
      ++ _) = _
    congr 1
    apply List.map_congr_left
    intro v _
    by_cases hp : pendId = some v.id
    · simp [hp]
    · simp [hp]
  · show ((before.map fun version_summary =>
        let version_summary :=
          if pendId = some version_summary.id then
            { version_summary with pending := false }
          else version_summary
        if false = false ∧ (some cid : Option String) = some version_summary.id then
          { version_summary with current := false }
        else version_summary)
      ++ _) = _
    congr 1
    apply List.map_congr_left
    intro v _
    by_cases hp : pendId = some v.id
    · by_cases hcid : (some cid : Option String) = some v.id
      · simp [hp, hcid]
      · simp [hp, hcid]
    · by_cases hcid : (some cid : Option String) = some v.id
      · simp [hp, hcid]
      · simp [hp, hcid]

/-! ## Assignment event handling (core/src/subgraph/registrar.rs) -/

/-- The provider errors distinguished by handle_assignment_event and
start_subgraph; every other failure reason is collapsed into Other. -/
inductive SubgraphAssignmentProviderError
  | AlreadyRunning (id : SubgraphDeploymentId)
  | NotRunning (id : SubgraphDeploymentId)
  | Other (msg : String)
deriving DecidableEq, Repr

/-- The error type of the cancelable assignment event stream. -/
inductive CancelableError
  | Cancel
  | Error (e : SubgraphAssignmentProviderError)
deriving DecidableEq, Repr

/-- An assignment event delivered to the registrar's event loop. -/
inductive AssignmentEvent
  | Add (subgraph_id : SubgraphDeploymentId) (node_id : NodeId)
  | Remove (subgraph_id : SubgraphDeploymentId) (node_id : NodeId)
deriving DecidableEq, Repr

/-- Embeds start_subgraph: the provider's start outcome (passed as an
argument) is inspected, AlreadyRunning is an idempotent no-op and every
other start error is logged and swallowed, so the future never errors —
modelled by the Empty error type. -/
def start_subgraph (start_result : Except SubgraphAssignmentProviderError Unit) :
    Except Empty Unit :=
  match start_result with
  | .ok () => .ok ()
  | .error (.AlreadyRunning _) => .ok ()
  | .error _ => .ok ()

/-- Embeds handle_assignment_event: Add events delegate to
start_subgraph (whose error type is empty); Remove events stop the
provider, treating NotRunning as success and propagating every other
stop error as a CancelableError. The provider call's outcome for this
event is passed as an argument. -/
def handle_assignment_event (event : AssignmentEvent)
    (provider_result : Except SubgraphAssignmentProviderError Unit) :
    Except CancelableError Unit :=
  match event with
  | .Add _ _ =>
    match start_subgraph provider_result with
    | .ok () => .ok ()
    | .error e => e.elim
  | .Remove _ _ =>
    match provider_result with
    | .ok () => .ok ()
    | .error (.NotRunning _) => .ok ()
    | .error e => .error (.Error e)

/-- The fate of one iteration of the registrar's event loop
(SubgraphRegistrar::start): every error propagating out of
handle_assignment_event reaches the map_err whose both arms panic, so
anything but ok is fatal to the process. -/
inductive LoopOutcome
  | continues
  | fatalPanic
deriving DecidableEq, Repr

/-- Embeds the for_each / map_err composition in
SubgraphRegistrar::start. -/
def assignment_loop_step (event : AssignmentEvent)
    (provider_result : Except SubgraphAssignmentProviderError Unit) : LoopOutcome :=
  match handle_assignment_event event provider_result with
  | .ok () => .continues
  | .error _ => .fatalPanic

/-- Counterexample to claim C4 as stated: a provider stop failure whose
reason is neither already-running nor not-running is not handled as a
subgraph-local failure — handle_assignment_event returns it as an error,
and the event loop's map_err turns it into a process panic. -/
theorem stop_failure_is_fatal_counterexample :
    handle_assignment_event
        (.Remove ⟨"QmDep"⟩ ⟨"node_1"⟩)
        (.error (.Other "store unavailable"))
      = .error (.Error (.Other "store unavailable"))
    ∧ assignment_loop_step
        (.Remove ⟨"QmDep"⟩ ⟨"node_1"⟩)
        (.error (.Other "store unavailable"))
      = .fatalPanic := by
  exact ⟨rfl, rfl⟩

/-- Claim C4 as amended: a provider start failure of any reason is
subgraph local — handle_assignment_event returns success for every Add
event, so the coordinator continues; for Remove events only a NotRunning
stop failure (and success) is tolerated, while any other stop failure is
returned as an error and is fatal to the process via the event loop's
panicking map_err, alongside failure or cancellation of the assignment
event stream itself. -/
theorem assignment_event_error_handling (id : SubgraphDeploymentId) (n : NodeId)
    (res : Except SubgraphAssignmentProviderError Unit) :
    (handle_assignment_event (.Add id n) res = .ok ()
      ∧ assignment_loop_step (.Add id n) res = .continues)
    ∧ (handle_assignment_event (.Remove id n) (.ok ()) = .ok ())
    ∧ (∀ id2, handle_assignment_event (.Remove id n) (.error (.NotRunning id2)) = .ok ())
    ∧ ∀ e : SubgraphAssignmentProviderError, (∀ id2, e ≠ .NotRunning id2) →
        handle_assignment_event (.Remove id n) (.error e) = .error (.Error e)
        ∧ assignment_loop_step (.Remove id n) (.error e) = .fatalPanic := by
  refine ⟨⟨?_, ?_⟩, rfl, fun _ => rfl, ?_⟩
  · cases res with
    | ok a => rfl
    | error e => cases e <;> rfl
  · cases res with
    | ok a => rfl
    | error e => cases e <;> rfl
  · intro e he
    cases e with
    | AlreadyRunning _ => exact ⟨rfl, rfl⟩
    | NotRunning id2 => exact absurd rfl (he id2)
    | Other _ => exact ⟨rfl, rfl⟩

/-- Witness for the amended claim C4 at concrete inputs. -/
theorem assignment_event_error_handling_witness :
    handle_assignment_event (.Add ⟨"QmDep"⟩ ⟨"node_1"⟩)
        (.error (.Other "bad subgraph")) = .ok ()
    ∧ handle_assignment_event (.Remove ⟨"QmDep"⟩ ⟨"node_1"⟩)
        (.error (.Other "io error")) = .error (.Error (.Other "io error")) :=
  ⟨(assignment_event_error_handling ⟨"QmDep"⟩ ⟨"node_1"⟩
      (.error (.Other "bad subgraph"))).1.1,
    ((assignment_event_error_handling ⟨"QmDep"⟩ ⟨"node_1"⟩
      (.error (.Other "io error"))).2.2.2 (.Other "io error")
        (fun _ h => SubgraphAssignmentProviderError.noConfusion h)).1⟩

end GraphNode
